import Mathlib

/-!
Verification of the Liquidity budget-allocation optimizer.

The repository's algorithmic core is the priority-tiered constraint
relaxation solver (`backend/app/solver.py`); only its documentation
(`PLAN.md` §"Solving strategy for priority tiers") and its frontend
callers ship in the sources at hand, so the solver itself is modelled
here from the specification (each such definition says so in its doc
comment).  The frontend pieces — `sanitizeCategory` and
`loadDashboardConstraints` from the chat page, and the constraint
editor's operations — are embedded directly from the TypeScript source.
-/

namespace Liquidity

/-- Comparison operator of a constraint: `<=`, `>=` or `==`. -/
inductive CmpOp where
  | le
  | ge
  | eq
deriving DecidableEq, Repr

/-- Constraint type: `hard` (non-negotiable) or `soft` (droppable). -/
inductive CType where
  | hard
  | soft
deriving DecidableEq, Repr

/-- Modelled from the spec (§3 ConstraintDefinition; the backend
`solver.py` is not among the sources): one requirement bounding a single
category.  Monetary amounts are whole currency units (spec §4.2
"Numeric semantics"), so `amount : Int`. -/
structure ConstraintDef where
  category : String
  op : CmpOp
  amount : Int
  constraint_type : CType
  priority : Int
  description : String
deriving DecidableEq, Repr

/-- Modelled from the spec (§3 Variable): one spending category with a
lower bound (0 by default, money is non-negative) and an optional upper
bound (`none` = unbounded). -/
structure VarDef where
  name : String
  lower_bound : Int := 0
  upper_bound : Option Int := none
deriving DecidableEq, Repr

/-- Solve status (spec §3 SolveResult / §6). -/
inductive Status where
  | OPTIMAL
  | FEASIBLE
  | INFEASIBLE
deriving DecidableEq, Repr

/-- Modelled from the spec (§3 SolveResult, §6 return shape; matches the
`solver_result` field of `OptimizationResponse` in `frontend/lib/api.ts`):
the only object surviving a solve call.  `solution` is an association
list standing for the category → amount map. -/
structure SolveResult where
  status : Status
  objective_value : Int
  solution : List (String × Int)
  satisfied_constraints : List String
  dropped_constraints : List String
deriving DecidableEq, Repr

/-- The hard constraints of an input list, in declaration order. -/
def hardOf (cons : List ConstraintDef) : List ConstraintDef :=
  cons.filter (fun c => c.constraint_type == CType.hard)

/-- The soft constraints of an input list, in declaration order. -/
def softOf (cons : List ConstraintDef) : List ConstraintDef :=
  cons.filter (fun c => c.constraint_type == CType.soft)

/-- Modelled from the spec (§3, §4.1): the variable set of a solve call is
the union of caller-declared variables and categories referenced by
constraints (undeclared categories are auto-declared). -/
def allNames (vars : List VarDef) (cons : List ConstraintDef) : List String :=
  (vars.map (·.name) ++ cons.map (·.category)).dedup

/-- Does a `ge`/`eq` constraint on `n` push the lower bound? -/
def pushesLo (n : String) (c : ConstraintDef) : Bool :=
  c.category == n && (c.op == CmpOp.ge || c.op == CmpOp.eq)

/-- Does a `le`/`eq` constraint on `n` push the upper bound? -/
def pushesHi (n : String) (c : ConstraintDef) : Bool :=
  c.category == n && (c.op == CmpOp.le || c.op == CmpOp.eq)

/-- Lower bound of variable `n` from its declarations: duplicate
declarations tighten to the intersection (spec §4.1 `declare_variable`),
and the default / implicit floor is 0. -/
def baseLo (vars : List VarDef) (n : String) : Int :=
  vars.foldl (fun acc v => if v.name == n then max acc v.lower_bound else acc) 0

/-- Combine an optional upper bound with a new bound (`none` = +∞). -/
def optMin (acc : Option Int) (b : Int) : Option Int :=
  match acc with
  | none => some b
  | some a => some (min a b)

/-- Upper bound of variable `n` from its declarations (`none` = unbounded). -/
def baseHi (vars : List VarDef) (n : String) : Option Int :=
  vars.foldl
    (fun acc v =>
      if v.name == n then
        match v.upper_bound with
        | none => acc
        | some b => optMin acc b
      else acc)
    none

/-- Modelled from the spec (§4.1 `add_constraint`): effective lower bound
of `n` under the active constraint rows — every `>=`/`==` row raises it. -/
def loOf (vars : List VarDef) (active : List ConstraintDef) (n : String) : Int :=
  active.foldl (fun acc c => if pushesLo n c then max acc c.amount else acc)
    (baseLo vars n)

/-- Modelled from the spec (§4.1 `add_constraint`): effective upper bound
of `n` under the active constraint rows — every `<=`/`==` row lowers it. -/
def hiOf (vars : List VarDef) (active : List ConstraintDef) (n : String) :
    Option Int :=
  active.foldl (fun acc c => if pushesHi n c then optMin acc c.amount else acc)
    (baseHi vars n)

/-- `v` is below an optional upper bound (`none` = +∞). -/
def withinHi (v : Int) : Option Int → Bool
  | none => true
  | some a => v ≤ a

/-- Modelled from the spec (§4.2 step 2, the underlying solve primitive):
since every constraint row bounds one category (spec §6 input shape), the
model is an interval system; it is feasible iff every variable's interval
is non-empty. -/
def feasibleOn (vars : List VarDef) (names : List String)
    (active : List ConstraintDef) : Bool :=
  names.all (fun n => withinHi (loOf vars active n) (hiOf vars active n))

/-- Look a category up in a solution association list. -/
def lookupSol (sol : List (String × Int)) (n : String) : Option Int :=
  (sol.find? (fun p => p.1 == n)).map (·.2)

/-- Interpretation of a comparison operator. -/
def opHolds : CmpOp → Int → Int → Bool
  | CmpOp.le, v, a => v ≤ a
  | CmpOp.ge, v, a => a ≤ v
  | CmpOp.eq, v, a => v == a

/-- A solution satisfies a constraint when the category is assigned and
the assigned value stands in the constraint's relation to its amount. -/
def satisfiesB (sol : List (String × Int)) (c : ConstraintDef) : Bool :=
  match lookupSol sol c.category with
  | none => false
  | some v => opHolds c.op v c.amount

/-- Modelled from the spec (§4.2 step 4a): among the soft constraints
currently present, select the one with the numerically highest priority,
breaking ties towards the one declared last; return it together with the
remaining list (declaration order preserved). -/
def pickDrop : List ConstraintDef → Option (ConstraintDef × List ConstraintDef)
  | [] => none
  | c :: rest =>
    match pickDrop rest with
    | none => some (c, [])
    | some (b, brest) =>
      if b.priority < c.priority then some (c, rest) else some (b, c :: brest)

/-- Outcome of the relaxation search: whether a feasible model was
reached, the soft constraints remaining in the model, the dropped soft
constraints in drop order, and how many solve-primitive invocations were
made. -/
structure SearchOut where
  ok : Bool
  remaining : List ConstraintDef
  dropped : List ConstraintDef
  nSolves : Nat
deriving DecidableEq, Repr

/-- Modelled from the spec (§4.2 steps 2–5, §9 "explicit bounded loop"):
the relaxation loop.  Each round solves the current model (one
solve-primitive invocation, here the interval-feasibility check); on
infeasibility it removes `pickDrop`'s choice and re-solves.  The loop is
bounded by `fuel`, instantiated with the soft-constraint count. -/
def relaxLoop (vars : List VarDef) (names : List String)
    (hard : List ConstraintDef) :
    Nat → List ConstraintDef → SearchOut
  | 0, active =>
    if feasibleOn vars names (hard ++ active) then
      { ok := true, remaining := active, dropped := [], nSolves := 1 }
    else
      { ok := false, remaining := active, dropped := [], nSolves := 1 }
  | fuel + 1, active =>
    if feasibleOn vars names (hard ++ active) then
      { ok := true, remaining := active, dropped := [], nSolves := 1 }
    else
      match pickDrop active with
      | none =>
        { ok := false, remaining := active, dropped := [], nSolves := 1 }
      | some (c, rest) =>
        let r := relaxLoop vars names hard fuel rest
        { r with dropped := c :: r.dropped, nSolves := r.nSolves + 1 }

/-- The relaxation search of a solve call: full model first, then drops,
with fuel equal to the number of soft constraints. -/
def searchOf (vars : List VarDef) (cons : List ConstraintDef) : SearchOut :=
  relaxLoop vars (allNames vars cons) (hardOf cons) (softOf cons).length
    (softOf cons)

/-- Modelled from the spec (§4.2, §9): the solve primitive's numeric
solution may be any point of the final feasible box; `pick` abstracts
that solver-internal choice.  Status and drop decisions use only the
feasibility check and never consult `pick`. -/
def solveWith (pick : String → Int → Option Int → Int)
    (vars : List VarDef) (cons : List ConstraintDef) : SolveResult :=
  let hard := hardOf cons
  let names := allNames vars cons
  let r := searchOf vars cons
  if r.ok then
    { status := Status.OPTIMAL
      objective_value := 0
      solution := names.map (fun n =>
        (n, pick n (loOf vars (hard ++ r.remaining) n)
              (hiOf vars (hard ++ r.remaining) n)))
      satisfied_constraints := (hard ++ r.remaining).map (·.description)
      dropped_constraints := r.dropped.map (·.description) }
  else
    { status := Status.INFEASIBLE
      objective_value := 0
      solution := []
      satisfied_constraints := hard.map (·.description)
      dropped_constraints := r.dropped.map (·.description) }

/-- The default solver-internal choice: the least point of each interval. -/
def defaultPick (_n : String) (lo : Int) (_hi : Option Int) : Int := lo

/-- Modelled from the spec (§6 `solve`): the single synchronous entry
point.  It is a total function into `SolveResult` — infeasibility is a
status of the returned value, never an exception (spec §7). -/
def solve (vars : List VarDef) (cons : List ConstraintDef) : SolveResult :=
  solveWith defaultPick vars cons

/-! ### Bound-fold lemmas -/

theorem loAux_ge_init (n : String) :
    ∀ (l : List ConstraintDef) (init : Int),
      init ≤ List.foldl
        (fun acc c => if pushesLo n c then max acc c.amount else acc) init l
  | [], _ => le_refl _
  | c :: l, init => by
    simp only [List.foldl_cons]
    refine le_trans ?_ (loAux_ge_init n l _)
    by_cases h : pushesLo n c = true
    · simp only [h, if_true]
      exact le_max_left _ _
    · simp only [h, if_false]
      exact le_refl _

theorem loAux_ge_elem (n : String) :
    ∀ (l : List ConstraintDef) (init : Int) (c : ConstraintDef),
      c ∈ l → pushesLo n c = true →
      c.amount ≤ List.foldl
        (fun acc x => if pushesLo n x then max acc x.amount else acc) init l
  | [], _, _, h, _ => absurd h (List.not_mem_nil _)
  | x :: l, init, c, h, hp => by
    simp only [List.foldl_cons]
    rcases List.mem_cons.mp h with rfl | h'
    · refine le_trans ?_ (loAux_ge_init n l _)
      simp only [hp, if_true]
      exact le_max_right _ _
    · exact loAux_ge_elem n l _ c h' hp

theorem hiAux_le_init (n : String) :
    ∀ (l : List ConstraintDef) (a : Int),
      ∃ b, List.foldl
        (fun acc c => if pushesHi n c then optMin acc c.amount else acc)
        (some a) l = some b ∧ b ≤ a
  | [], a => ⟨a, rfl, le_refl a⟩
  | c :: l, a => by
    simp only [List.foldl_cons]
    by_cases h : pushesHi n c = true
    · simp only [h, if_true, optMin]
      obtain ⟨b, hb, hba⟩ := hiAux_le_init n l (min a c.amount)
      exact ⟨b, hb, le_trans hba (min_le_left _ _)⟩
    · simp only [h, if_false]
      exact hiAux_le_init n l a

theorem hiAux_le_elem (n : String) :
    ∀ (l : List ConstraintDef) (init : Option Int) (c : ConstraintDef),
      c ∈ l → pushesHi n c = true →
      ∃ b, List.foldl
        (fun acc x => if pushesHi n x then optMin acc x.amount else acc)
        init l = some b ∧ b ≤ c.amount
  | [], _, _, h, _ => absurd h (List.not_mem_nil _)
  | x :: l, init, c, h, hp => by
    simp only [List.foldl_cons]
    rcases List.mem_cons.mp h with rfl | h'
    · simp only [hp, if_true]
      cases init with
      | none =>
        simp only [optMin]
        exact hiAux_le_init n l c.amount
      | some a =>
        simp only [optMin]
        obtain ⟨b, hb, hba⟩ := hiAux_le_init n l (min a c.amount)
        exact ⟨b, hb, le_trans hba (min_le_right _ _)⟩
    · exact hiAux_le_elem n l _ c h' hp

theorem loOf_append (vars : List VarDef) (l1 l2 : List ConstraintDef)
    (n : String) :
    loOf vars (l1 ++ l2) n = List.foldl
      (fun acc c => if pushesLo n c then max acc c.amount else acc)
      (loOf vars l1 n) l2 := by
  simp only [loOf, List.foldl_append]

theorem hiOf_append (vars : List VarDef) (l1 l2 : List ConstraintDef)
    (n : String) :
    hiOf vars (l1 ++ l2) n = List.foldl
      (fun acc c => if pushesHi n c then optMin acc c.amount else acc)
      (hiOf vars l1 n) l2 := by
  simp only [hiOf, List.foldl_append]

theorem withinHi_some (v a : Int) : withinHi v (some a) = true ↔ v ≤ a := by
  simp [withinHi]

/-- Feasibility monotonicity (spec §8): a model that is feasible with
extra rows is feasible without them. -/
theorem feasibleOn_append_left (vars : List VarDef) (names : List String)
    (l1 l2 : List ConstraintDef) :
    feasibleOn vars names (l1 ++ l2) = true → feasibleOn vars names l1 = true := by
  intro h
  rw [feasibleOn, List.all_eq_true] at h ⊢
  intro n hn
  have hfull := h n hn
  rw [loOf_append] at hfull
  rw [hiOf_append] at hfull
  cases hhi : hiOf vars l1 n with
  | none => simp [withinHi]
  | some a =>
    rw [hhi] at hfull
    obtain ⟨b, hb, hba⟩ := hiAux_le_init n l2 a
    rw [hb, withinHi_some] at hfull
    rw [withinHi_some]
    exact le_trans (le_trans (loAux_ge_init n l2 _) hfull) (le_trans hba (le_refl a))

/-! ### `pickDrop` characterization -/

theorem pickDrop_nil : pickDrop [] = none := rfl

theorem pickDrop_eq_none_iff (l : List ConstraintDef) :
    pickDrop l = none ↔ l = [] := by
  cases l with
  | nil => simp [pickDrop]
  | cons c rest =>
    simp only [pickDrop]
    cases h : pickDrop rest with
    | none => simp
    | some p =>
      obtain ⟨b, brest⟩ := p
      by_cases hp : b.priority < c.priority <;> simp [hp]

/-- The selected constraint splits the list: everything declared before it
has priority `≤` its own, everything declared after it has priority
strictly `<` its own (so it is the last-declared maximum), and the
remainder keeps declaration order with just that element removed. -/
theorem pickDrop_split :
    ∀ (l : List ConstraintDef) (c : ConstraintDef) (rest : List ConstraintDef),
      pickDrop l = some (c, rest) →
      ∃ l1 l2, l = l1 ++ c :: l2 ∧ rest = l1 ++ l2 ∧
        (∀ x ∈ l1, x.priority ≤ c.priority) ∧
        (∀ x ∈ l2, x.priority < c.priority)
  | [], c, rest, h => by simp [pickDrop] at h
  | a :: l, c, rest, h => by
    simp only [pickDrop] at h
    cases hl : pickDrop l with
    | none =>
      rw [hl] at h
      have hnil : l = [] := (pickDrop_eq_none_iff l).mp hl
      simp only [Option.some.injEq, Prod.mk.injEq] at h
      obtain ⟨rfl, rfl⟩ := h
      exact ⟨[], [], by simp [hnil], by simp, by simp, by simp⟩
    | some p =>
      obtain ⟨b, brest⟩ := p
      rw [hl] at h
      dsimp only at h
      obtain ⟨r1, r2, hsplit, hrest, hle, hlt⟩ := pickDrop_split l b brest hl
      by_cases hp : b.priority < a.priority
      · rw [if_pos hp] at h
        simp only [Option.some.injEq, Prod.mk.injEq] at h
        obtain ⟨rfl, rfl⟩ := h
        refine ⟨[], l, rfl, rfl, by simp, ?_⟩
        intro x hx
        rw [hsplit] at hx
        rcases List.mem_append.mp hx with hx1 | hx2
        · exact lt_of_le_of_lt (hle x hx1) hp
        · rcases List.mem_cons.mp hx2 with rfl | hx3
          · exact hp
          · exact lt_trans (hlt x hx3) hp
      · rw [if_neg hp] at h
        simp only [Option.some.injEq, Prod.mk.injEq] at h
        obtain ⟨rfl, rfl⟩ := h
        refine ⟨a :: r1, r2, by rw [hsplit, List.cons_append], by rw [hrest, List.cons_append], ?_, hlt⟩
        intro x hx
        rcases List.mem_cons.mp hx with rfl | hx1
        · exact le_of_not_lt hp
        · exact hle x hx1

theorem pickDrop_mem {l : List ConstraintDef} {c : ConstraintDef}
    {rest : List ConstraintDef} (h : pickDrop l = some (c, rest)) :
    c ∈ l ∧ ∀ x ∈ rest, x ∈ l := by
  obtain ⟨l1, l2, hsplit, hrest, -, -⟩ := pickDrop_split l c rest h
  subst hsplit
  subst hrest
  constructor
  · exact List.mem_append.mpr (Or.inr (List.mem_cons_self _ _))
  · intro x hx
    rcases List.mem_append.mp hx with hx1 | hx2
    · exact List.mem_append.mpr (Or.inl hx1)
    · exact List.mem_append.mpr (Or.inr (List.mem_cons_of_mem _ hx2))

/-! ### Relaxation-loop lemmas -/

theorem relaxLoop_ok_feasible (vars : List VarDef) (names : List String)
    (hard : List ConstraintDef) :
    ∀ (fuel : Nat) (active : List ConstraintDef),
      (relaxLoop vars names hard fuel active).ok = true →
      feasibleOn vars names
        (hard ++ (relaxLoop vars names hard fuel active).remaining) = true
  | 0, active => by
    simp only [relaxLoop]
    by_cases h : feasibleOn vars names (hard ++ active) = true
    · simp [h]
    · simp [h]
  | fuel + 1, active => by
    simp only [relaxLoop]
    by_cases h : feasibleOn vars names (hard ++ active) = true
    · simp [h]
    · simp only [h, if_false]
      cases hp : pickDrop active with
      | none => simp
      | some p =>
        obtain ⟨c, rest⟩ := p
        simp only
        exact relaxLoop_ok_feasible vars names hard fuel rest

theorem relaxLoop_remaining_sub (vars : List VarDef) (names : List String)
    (hard : List ConstraintDef) :
    ∀ (fuel : Nat) (active : List ConstraintDef),
      ∀ x ∈ (relaxLoop vars names hard fuel active).remaining, x ∈ active
  | 0, active => by
    simp only [relaxLoop]
    by_cases h : feasibleOn vars names (hard ++ active) = true <;>
      simp [h]
  | fuel + 1, active => by
    simp only [relaxLoop]
    by_cases h : feasibleOn vars names (hard ++ active) = true
    · simp [h]
    · simp only [h, if_false]
      cases hp : pickDrop active with
      | none => simp
      | some p =>
        obtain ⟨c, rest⟩ := p
        simp only
        intro x hx
        exact (pickDrop_mem hp).2 x
          (relaxLoop_remaining_sub vars names hard fuel rest x hx)

theorem relaxLoop_dropped_sub (vars : List VarDef) (names : List String)
    (hard : List ConstraintDef) :
    ∀ (fuel : Nat) (active : List ConstraintDef),
      ∀ x ∈ (relaxLoop vars names hard fuel active).dropped, x ∈ active
  | 0, active => by
    simp only [relaxLoop]
    by_cases h : feasibleOn vars names (hard ++ active) = true <;>
      simp [h]
  | fuel + 1, active => by
    simp only [relaxLoop]
    by_cases h : feasibleOn vars names (hard ++ active) = true
    · simp [h]
    · simp only [h, if_false]
      cases hp : pickDrop active with
      | none => simp
      | some p =>
        obtain ⟨c, rest⟩ := p
        simp only
        intro x hx
        rcases List.mem_cons.mp hx with rfl | hx'
        · exact (pickDrop_mem hp).1
        · exact (pickDrop_mem hp).2 x
            (relaxLoop_dropped_sub vars names hard fuel rest x hx')

theorem relaxLoop_infeasible_hard (vars : List VarDef) (names : List String)
    (hard : List ConstraintDef)
    (hinf : feasibleOn vars names hard = false) :
    ∀ (fuel : Nat) (active : List ConstraintDef),
      (relaxLoop vars names hard fuel active).ok = false
  | 0, active => by
    have h : feasibleOn vars names (hard ++ active) = false := by
      by_contra hc
      rw [Bool.not_eq_false] at hc
      rw [feasibleOn_append_left vars names hard active hc] at hinf
      exact Bool.noConfusion hinf
    simp [relaxLoop, h]
  | fuel + 1, active => by
    have h : feasibleOn vars names (hard ++ active) = false := by
      by_contra hc
      rw [Bool.not_eq_false] at hc
      rw [feasibleOn_append_left vars names hard active hc] at hinf
      exact Bool.noConfusion hinf
    simp only [relaxLoop, h, Bool.false_eq_true, if_false]
    cases hp : pickDrop active with
    | none => simp
    | some p =>
      obtain ⟨c, rest⟩ := p
      simp only
      exact relaxLoop_infeasible_hard vars names hard hinf fuel rest

theorem relaxLoop_nSolves (vars : List VarDef) (names : List String)
    (hard : List ConstraintDef) :
    ∀ (fuel : Nat) (active : List ConstraintDef),
      (relaxLoop vars names hard fuel active).nSolves ≤ fuel + 1
  | 0, active => by
    simp only [relaxLoop]
    by_cases h : feasibleOn vars names (hard ++ active) = true <;> simp [h]
  | fuel + 1, active => by
    simp only [relaxLoop]
    by_cases h : feasibleOn vars names (hard ++ active) = true
    · simp [h]
    · rw [if_neg h]
      cases hp : pickDrop active with
      | none => simp
      | some p =>
        obtain ⟨c, rest⟩ := p
        dsimp only
        have := relaxLoop_nSolves vars names hard fuel rest
        omega

/-! ### Solution lemmas -/

theorem lookupSol_map (f : String → Int) :
    ∀ (names : List String) (n : String), n ∈ names →
      lookupSol (names.map (fun m => (m, f m))) n = some (f n)
  | [], n, h => absurd h (List.not_mem_nil n)
  | m :: names, n, h => by
    by_cases hm : m = n
    · subst hm
      simp [lookupSol, List.find?]
    · have hn : n ∈ names := by
        rcases List.mem_cons.mp h with h1 | h2
        · exact absurd h1.symm hm
        · exact h2
      have hmb : (m == n) = false := beq_eq_false_iff_ne.mpr hm
      have ih := lookupSol_map f names n hn
      rw [lookupSol] at ih ⊢
      simp only [List.map_cons, List.find?_cons, hmb]
      exact ih

/-- The least point of every variable's interval satisfies each active
constraint of a feasible model. -/
theorem minSolution_satisfies (vars : List VarDef) (names : List String)
    (active : List ConstraintDef) (c : ConstraintDef)
    (hfeas : feasibleOn vars names active = true)
    (hc : c ∈ active) (hn : c.category ∈ names) :
    satisfiesB (names.map (fun n => (n, loOf vars active n))) c = true := by
  have hlook := lookupSol_map (fun n => loOf vars active n) names c.category hn
  rw [satisfiesB, hlook]
  have hfc : withinHi (loOf vars active c.category)
      (hiOf vars active c.category) = true := by
    rw [feasibleOn, List.all_eq_true] at hfeas
    exact hfeas c.category hn
  cases hop : c.op with
  | ge =>
    have hp : pushesLo c.category c = true := by
      simp [pushesLo, hop]
    have hge := loAux_ge_elem c.category active (baseLo vars c.category) c hc hp
    simp only [opHolds, decide_eq_true_eq]
    rw [loOf]
    exact hge
  | le =>
    have hp : pushesHi c.category c = true := by
      simp [pushesHi, hop]
    obtain ⟨b, hb, hba⟩ :=
      hiAux_le_elem c.category active (baseHi vars c.category) c hc hp
    have hhi : hiOf vars active c.category = some b := by
      rw [hiOf]; exact hb
    rw [hhi, withinHi_some] at hfc
    simp only [opHolds, decide_eq_true_eq]
    exact le_trans hfc hba
  | eq =>
    have hpl : pushesLo c.category c = true := by
      simp [pushesLo, hop]
    have hph : pushesHi c.category c = true := by
      simp [pushesHi, hop]
    have hge := loAux_ge_elem c.category active (baseLo vars c.category) c hc hpl
    obtain ⟨b, hb, hba⟩ :=
      hiAux_le_elem c.category active (baseHi vars c.category) c hc hph
    have hhi : hiOf vars active c.category = some b := by
      rw [hiOf]; exact hb
    rw [hhi, withinHi_some] at hfc
    have hlo : c.amount ≤ loOf vars active c.category := by
      rw [loOf]; exact hge
    have hhi2 : loOf vars active c.category ≤ c.amount := le_trans hfc hba
    simp only [opHolds, beq_iff_eq]
    omega

/-! ### Membership helpers -/

theorem mem_hardOf {c : ConstraintDef} {cons : List ConstraintDef} :
    c ∈ hardOf cons ↔ c ∈ cons ∧ c.constraint_type = CType.hard := by
  rw [hardOf, List.mem_filter]
  simp [beq_iff_eq]

theorem mem_softOf {c : ConstraintDef} {cons : List ConstraintDef} :
    c ∈ softOf cons ↔ c ∈ cons ∧ c.constraint_type = CType.soft := by
  rw [softOf, List.mem_filter]
  simp [beq_iff_eq]

theorem category_mem_allNames {c : ConstraintDef} (vars : List VarDef)
    {cons : List ConstraintDef} (h : c ∈ cons) :
    c.category ∈ allNames vars cons := by
  rw [allNames, List.mem_dedup, List.mem_append]
  exact Or.inr (List.mem_map_of_mem (·.category) h)

/-- `solveWith` on a successful search: the two branch equations. -/
theorem solveWith_eq_ok (pick : String → Int → Option Int → Int)
    (vars : List VarDef) (cons : List ConstraintDef)
    (h : (searchOf vars cons).ok = true) :
    solveWith pick vars cons =
      { status := Status.OPTIMAL
        objective_value := 0
        solution := (allNames vars cons).map (fun n =>
          (n, pick n (loOf vars (hardOf cons ++ (searchOf vars cons).remaining) n)
                (hiOf vars (hardOf cons ++ (searchOf vars cons).remaining) n)))
        satisfied_constraints :=
          (hardOf cons ++ (searchOf vars cons).remaining).map (·.description)
        dropped_constraints := (searchOf vars cons).dropped.map (·.description) } := by
  rw [solveWith]
  simp only [h, if_true]

/-- `solveWith` on an exhausted search: hard-only model infeasible. -/
theorem solveWith_eq_bad (pick : String → Int → Option Int → Int)
    (vars : List VarDef) (cons : List ConstraintDef)
    (h : (searchOf vars cons).ok = false) :
    solveWith pick vars cons =
      { status := Status.INFEASIBLE
        objective_value := 0
        solution := []
        satisfied_constraints := (hardOf cons).map (·.description)
        dropped_constraints := (searchOf vars cons).dropped.map (·.description) } := by
  rw [solveWith]
  simp only [h, Bool.false_eq_true, if_false]

theorem searchOf_ok_feasible (vars : List VarDef) (cons : List ConstraintDef)
    (h : (searchOf vars cons).ok = true) :
    feasibleOn vars (allNames vars cons)
      (hardOf cons ++ (searchOf vars cons).remaining) = true := by
  rw [searchOf] at h ⊢
  exact relaxLoop_ok_feasible _ _ _ _ _ h

theorem searchOf_dropped_soft (vars : List VarDef) (cons : List ConstraintDef) :
    ∀ x ∈ (searchOf vars cons).dropped,
      x ∈ cons ∧ x.constraint_type = CType.soft := by
  intro x hx
  rw [searchOf] at hx
  exact mem_softOf.mp (relaxLoop_dropped_sub _ _ _ _ _ x hx)

theorem searchOf_remaining_soft (vars : List VarDef) (cons : List ConstraintDef) :
    ∀ x ∈ (searchOf vars cons).remaining,
      x ∈ cons ∧ x.constraint_type = CType.soft := by
  intro x hx
  rw [searchOf] at hx
  exact mem_softOf.mp (relaxLoop_remaining_sub _ _ _ _ _ x hx)

/-- C1: for every solve call whose returned status is OPTIMAL or FEASIBLE,
every hard constraint of the input is satisfied by the returned solution;
and every entry of `dropped_constraints` is the description of a soft
input constraint — hard constraints are present in every solve attempt
and are never removed by the relaxation loop. -/
theorem solve_hard_inviolability (vars : List VarDef) (cons : List ConstraintDef) :
    (((solve vars cons).status = Status.OPTIMAL ∨
        (solve vars cons).status = Status.FEASIBLE) →
      ∀ c ∈ cons, c.constraint_type = CType.hard →
        satisfiesB (solve vars cons).solution c = true) ∧
    (∀ d ∈ (solve vars cons).dropped_constraints,
      ∃ c ∈ cons, c.constraint_type = CType.soft ∧ c.description = d) := by
  cases hok : (searchOf vars cons).ok with
  | true =>
    rw [solve, solveWith_eq_ok defaultPick vars cons hok]
    constructor
    · intro _ c hc hhard
      have hmem : c ∈ hardOf cons ++ (searchOf vars cons).remaining :=
        List.mem_append.mpr (Or.inl (mem_hardOf.mpr ⟨hc, hhard⟩))
      have hfeas := searchOf_ok_feasible vars cons hok
      have hn : c.category ∈ allNames vars cons := category_mem_allNames vars hc
      have hsat := minSolution_satisfies vars (allNames vars cons) _ c hfeas hmem hn
      simpa [defaultPick] using hsat
    · intro d hd
      simp only [List.mem_map] at hd
      obtain ⟨x, hx, rfl⟩ := hd
      obtain ⟨hxc, hxs⟩ := searchOf_dropped_soft vars cons x hx
      exact ⟨x, hxc, hxs, rfl⟩
  | false =>
    rw [solve, solveWith_eq_bad defaultPick vars cons hok]
    constructor
    · intro hst
      rcases hst with h | h <;> exact absurd h (by simp)
    · intro d hd
      simp only [List.mem_map] at hd
      obtain ⟨x, hx, rfl⟩ := hd
      obtain ⟨hxc, hxs⟩ := searchOf_dropped_soft vars cons x hx
      exact ⟨x, hxc, hxs, rfl⟩

/-- Witness for C1: a solve call on one hard constraint succeeds and the
hard constraint is satisfied by the returned solution. -/
theorem solve_hard_inviolability_witness :
    satisfiesB
      (solve [] [⟨"rent", CmpOp.le, 300, CType.hard, 0, "rent cap"⟩]).solution
      ⟨"rent", CmpOp.le, 300, CType.hard, 0, "rent cap"⟩ = true :=
  (solve_hard_inviolability []
      [⟨"rent", CmpOp.le, 300, CType.hard, 0, "rent cap"⟩]).1
    (Or.inl (by decide)) _ (by decide) rfl

/-- C2: each iteration of the relaxation loop that follows an infeasible
solve removes exactly `pickDrop`'s choice, and that choice is, among the
soft constraints currently present, one of numerically highest priority;
when several tie at that priority the one declared last is removed
(everything declared after the choice has strictly smaller priority) and
earlier-declared ones are kept in the remainder. -/
theorem relax_drop_lowest_importance (vars : List VarDef) (names : List String)
    (hard : List ConstraintDef) (fuel : Nat) (active : List ConstraintDef)
    (c : ConstraintDef) (rest : List ConstraintDef)
    (hinf : feasibleOn vars names (hard ++ active) = false)
    (hpick : pickDrop active = some (c, rest)) :
    (relaxLoop vars names hard (fuel + 1) active).dropped =
      c :: (relaxLoop vars names hard fuel rest).dropped ∧
    ∃ l1 l2, active = l1 ++ c :: l2 ∧ rest = l1 ++ l2 ∧
      (∀ x ∈ l1, x.priority ≤ c.priority) ∧
      (∀ x ∈ l2, x.priority < c.priority) := by
  constructor
  · rw [relaxLoop, if_neg (by simp [hinf]), hpick]
  · exact pickDrop_split active c rest hpick

/-- Witness for C2: two soft constraints tie at priority 2, declared X
then Y; the infeasible first solve removes Y (declared last) and keeps X. -/
theorem relax_drop_lowest_importance_witness :
    (relaxLoop [] ["a"] [⟨"a", CmpOp.ge, 30, CType.hard, 0, "Z"⟩] 2
        [⟨"a", CmpOp.le, 10, CType.soft, 2, "X"⟩,
         ⟨"a", CmpOp.le, 20, CType.soft, 2, "Y"⟩]).dropped =
      ⟨"a", CmpOp.le, 20, CType.soft, 2, "Y"⟩ ::
        (relaxLoop [] ["a"] [⟨"a", CmpOp.ge, 30, CType.hard, 0, "Z"⟩] 1
          [⟨"a", CmpOp.le, 10, CType.soft, 2, "X"⟩]).dropped ∧
    ∃ l1 l2,
      [⟨"a", CmpOp.le, 10, CType.soft, 2, "X"⟩,
       ⟨"a", CmpOp.le, 20, CType.soft, 2, "Y"⟩] =
        l1 ++ (⟨"a", CmpOp.le, 20, CType.soft, 2, "Y"⟩ : ConstraintDef) :: l2 ∧
      ([⟨"a", CmpOp.le, 10, CType.soft, 2, "X"⟩] : List ConstraintDef) =
        l1 ++ l2 ∧
      (∀ x ∈ l1, x.priority ≤
        (⟨"a", CmpOp.le, 20, CType.soft, 2, "Y"⟩ : ConstraintDef).priority) ∧
      (∀ x ∈ l2, x.priority <
        (⟨"a", CmpOp.le, 20, CType.soft, 2, "Y"⟩ : ConstraintDef).priority) :=
  relax_drop_lowest_importance [] ["a"] [⟨"a", CmpOp.ge, 30, CType.hard, 0, "Z"⟩]
    1
    [⟨"a", CmpOp.le, 10, CType.soft, 2, "X"⟩,
     ⟨"a", CmpOp.le, 20, CType.soft, 2, "Y"⟩]
    ⟨"a", CmpOp.le, 20, CType.soft, 2, "Y"⟩
    [⟨"a", CmpOp.le, 10, CType.soft, 2, "X"⟩]
    (by decide) rfl

/-- C3: when the hard-only model is infeasible (so the relaxation loop
exhausts every soft constraint), `solve` still returns normally — it is a
total function into `SolveResult` — with status INFEASIBLE and an empty
solution map; infeasibility is communicated via the status field, never
via an exception. -/
theorem solve_infeasible_reports_status (vars : List VarDef)
    (cons : List ConstraintDef)
    (h : feasibleOn vars (allNames vars cons) (hardOf cons) = false) :
    (solve vars cons).status = Status.INFEASIBLE ∧
    (solve vars cons).solution = [] := by
  have hok : (searchOf vars cons).ok = false := by
    rw [searchOf]
    exact relaxLoop_infeasible_hard vars (allNames vars cons) (hardOf cons) h _ _
  rw [solve, solveWith_eq_bad defaultPick vars cons hok]
  exact ⟨rfl, rfl⟩

/-- Witness for C3: two contradictory hard constraints yield a normal
INFEASIBLE result with an empty solution. -/
theorem solve_infeasible_reports_status_witness :
    (solve [] [⟨"rent", CmpOp.eq, 1500, CType.hard, 0, "r1"⟩,
        ⟨"rent", CmpOp.le, 1000, CType.hard, 0, "r2"⟩]).status =
      Status.INFEASIBLE ∧
    (solve [] [⟨"rent", CmpOp.eq, 1500, CType.hard, 0, "r1"⟩,
        ⟨"rent", CmpOp.le, 1000, CType.hard, 0, "r2"⟩]).solution = [] :=
  solve_infeasible_reports_status [] _ (by decide)

/-- The number of solve-primitive invocations a solve call performs. -/
def solveCount (vars : List VarDef) (cons : List ConstraintDef) : Nat :=
  (searchOf vars cons).nSolves

/-- C4: the relaxation loop terminates on every input — `relaxLoop` is a
total structurally-recursive function whose fuel is the soft-constraint
count — and a solve call performs at most one solve-primitive invocation
per soft constraint plus one. -/
theorem solve_primitive_call_bound (vars : List VarDef)
    (cons : List ConstraintDef) :
    solveCount vars cons ≤ (softOf cons).length + 1 := by
  rw [solveCount, searchOf]
  exact relaxLoop_nSolves _ _ _ _ _

/-- C5: the status and the dropped-constraint sequence of a solve call
are a deterministic function of the input only: they are identical under
any two solver-internal numeric-solution choices (`pick1`, `pick2`), and
agree with the default run, so repeated solves of the same input agree. -/
theorem solve_drop_determinism (pick1 pick2 : String → Int → Option Int → Int)
    (vars : List VarDef) (cons : List ConstraintDef) :
    (solveWith pick1 vars cons).status = (solveWith pick2 vars cons).status ∧
    (solveWith pick1 vars cons).dropped_constraints =
      (solveWith pick2 vars cons).dropped_constraints ∧
    (solve vars cons).status = (solveWith pick1 vars cons).status ∧
    (solve vars cons).dropped_constraints =
      (solveWith pick1 vars cons).dropped_constraints := by
  cases hok : (searchOf vars cons).ok with
  | true =>
    rw [solve, solveWith_eq_ok pick1 vars cons hok,
      solveWith_eq_ok pick2 vars cons hok,
      solveWith_eq_ok defaultPick vars cons hok]
    exact ⟨rfl, rfl, rfl, rfl⟩
  | false =>
    rw [solve, solveWith_eq_bad pick1 vars cons hok,
      solveWith_eq_bad pick2 vars cons hok,
      solveWith_eq_bad defaultPick vars cons hok]
    exact ⟨rfl, rfl, rfl, rfl⟩

/-- C6: every solve result carries the five `SolveResult` fields: the
status is one of OPTIMAL, FEASIBLE, INFEASIBLE; the solution maps only
category names of the model; every satisfied-constraint entry is the
description of an input constraint present in the final model; and the
dropped list is exactly the removed soft constraints' descriptions in
drop order. -/
theorem solve_result_shape (vars : List VarDef) (cons : List ConstraintDef) :
    ((solve vars cons).status = Status.OPTIMAL ∨
     (solve vars cons).status = Status.FEASIBLE ∨
     (solve vars cons).status = Status.INFEASIBLE) ∧
    (∀ p ∈ (solve vars cons).solution, p.1 ∈ allNames vars cons) ∧
    (∀ s ∈ (solve vars cons).satisfied_constraints,
      ∃ c ∈ cons, c.description = s) ∧
    (solve vars cons).dropped_constraints =
      (searchOf vars cons).dropped.map (·.description) := by
  cases hok : (searchOf vars cons).ok with
  | true =>
    rw [solve, solveWith_eq_ok defaultPick vars cons hok]
    refine ⟨Or.inl rfl, ?_, ?_, rfl⟩
    · intro p hp
      simp only [List.mem_map] at hp
      obtain ⟨n, hn, rfl⟩ := hp
      exact hn
    · intro s hs
      simp only [List.map_append, List.mem_append, List.mem_map] at hs
      rcases hs with ⟨x, hx, rfl⟩ | ⟨x, hx, rfl⟩
      · exact ⟨x, (mem_hardOf.mp hx).1, rfl⟩
      · exact ⟨x, (searchOf_remaining_soft vars cons x hx).1, rfl⟩
  | false =>
    rw [solve, solveWith_eq_bad defaultPick vars cons hok]
    refine ⟨Or.inr (Or.inr rfl), ?_, ?_, rfl⟩
    · intro p hp
      exact absurd hp (List.not_mem_nil p)
    · intro s hs
      simp only [List.mem_map] at hs
      obtain ⟨x, hx, rfl⟩ := hs
      exact ⟨x, (mem_hardOf.mp hx).1, rfl⟩

/-- Witness for C6: a concrete solution entry's category is a model
variable name. -/
theorem solve_result_shape_witness :
    ("rent", (0 : Int)).1 ∈
      allNames [] [⟨"rent", CmpOp.le, 300, CType.hard, 0, "rent cap"⟩] :=
  (solve_result_shape []
      [⟨"rent", CmpOp.le, 300, CType.hard, 0, "rent cap"⟩]).2.1
    ("rent", 0) (by decide)

/-! ### `sanitizeCategory` (chat page)

Embedded from the TypeScript source (`sanitizeCategory`, chat page):
lowercase, trim, replace disallowed characters by `_`, collapse `_` runs,
strip one leading and one trailing `_`, prefix digit-leading names with
`cat_`, and fall back to `"category"`.  `Char.toLower` is the ASCII
approximation of JavaScript `toLowerCase`; any character it treats
differently is outside `[a-z0-9_]` either way and is replaced by `_`. -/

/-- `a-z` test (the character class of the sanitizer's regex). -/
def isLowerAZ (c : Char) : Bool :=
  decide ('a' ≤ c) && decide (c ≤ 'z')

/-- `0-9` test (the `/^[0-9]/` test of the sanitizer). -/
def isDigit09 (c : Char) : Bool :=
  decide ('0' ≤ c) && decide (c ≤ '9')

/-- Membership in the kept character class `[a-z0-9_]`. -/
def allowedChar (c : Char) : Bool :=
  isLowerAZ c || isDigit09 c || c == '_'

/-- `.trim()`: strip leading and trailing whitespace. -/
def jsTrim (l : List Char) : List Char :=
  ((l.dropWhile Char.isWhitespace).reverse.dropWhile Char.isWhitespace).reverse

/-- `.replace(/[^a-z0-9_]/g, "_")`. -/
def replaceDisallowed (l : List Char) : List Char :=
  l.map (fun c => if allowedChar c then c else '_')

/-- `.replace(/_+/g, "_")`: collapse runs of underscores to one. -/
def collapseUnderscores : List Char → List Char
  | [] => []
  | [c] => [c]
  | a :: b :: rest =>
    if a = '_' ∧ b = '_' then collapseUnderscores (b :: rest)
    else a :: collapseUnderscores (b :: rest)

/-- The `^_` half of `.replace(/^_|_$/g, "")`: one leading underscore. -/
def dropLeadUnderscore (l : List Char) : List Char :=
  match l with
  | [] => []
  | c :: rest => if c = '_' then rest else c :: rest

/-- The `_$` half of `.replace(/^_|_$/g, "")`: one trailing underscore. -/
def dropTrailUnderscore (l : List Char) : List Char :=
  (dropLeadUnderscore l.reverse).reverse

/-- The sanitizer pipeline before the digit-prefix / empty fallback. -/
def sanitizeCore (raw : String) : List Char :=
  dropTrailUnderscore (dropLeadUnderscore (collapseUnderscores
    (replaceDisallowed (jsTrim (raw.data.map Char.toLower)))))

/-- `sanitizeCategory` from the chat page: a valid solver identifier. -/
def sanitizeCategory (raw : String) : String :=
  match sanitizeCore raw with
  | [] => "category"
  | c :: rest =>
    if isDigit09 c then String.mk ('c' :: 'a' :: 't' :: '_' :: c :: rest)
    else String.mk (c :: rest)

/-- No two consecutive underscores. -/
def noDoubleUnderscore (l : List Char) : Prop :=
  List.Chain' (fun a b => ¬(a = '_' ∧ b = '_')) l

theorem replaceDisallowed_allowed (l : List Char) :
    ∀ c ∈ replaceDisallowed l, allowedChar c = true := by
  intro c hc
  rw [replaceDisallowed, List.mem_map] at hc
  obtain ⟨x, -, rfl⟩ := hc
  by_cases h : allowedChar x = true
  · rw [if_pos h]
    exact h
  · rw [if_neg h]
    decide

theorem collapse_sub : ∀ (l : List Char), ∀ c ∈ collapseUnderscores l, c ∈ l
  | [] => by simp [collapseUnderscores]
  | [a] => by simp [collapseUnderscores]
  | a :: b :: rest => by
    intro c hc
    rw [collapseUnderscores] at hc
    by_cases h : a = '_' ∧ b = '_'
    · rw [if_pos h] at hc
      exact List.mem_cons_of_mem a (collapse_sub (b :: rest) c hc)
    · rw [if_neg h] at hc
      rcases List.mem_cons.mp hc with rfl | hc'
      · exact List.mem_cons_self _ _
      · exact List.mem_cons_of_mem a (collapse_sub (b :: rest) c hc')

theorem collapse_head : ∀ (x : Char) (t : List Char),
    (collapseUnderscores (x :: t)).head? = some x
  | _, [] => rfl
  | x, y :: r => by
    rw [collapseUnderscores]
    by_cases h : x = '_' ∧ y = '_'
    · rw [if_pos h, collapse_head y r, h.1, h.2]
    · rw [if_neg h]
      rfl

theorem collapse_noDouble : ∀ (l : List Char),
    noDoubleUnderscore (collapseUnderscores l)
  | [] => List.chain'_nil
  | [a] => List.chain'_singleton a
  | a :: b :: rest => by
    rw [collapseUnderscores]
    by_cases h : a = '_' ∧ b = '_'
    · rw [if_pos h]
      exact collapse_noDouble (b :: rest)
    · rw [if_neg h]
      rw [noDoubleUnderscore, List.chain'_cons']
      refine ⟨?_, collapse_noDouble (b :: rest)⟩
      intro y hy
      rw [collapse_head b rest, Option.mem_def, Option.some.injEq] at hy
      subst hy
      exact h

theorem dropLead_sub (l : List Char) :
    ∀ c ∈ dropLeadUnderscore l, c ∈ l := by
  cases l with
  | nil => simp [dropLeadUnderscore]
  | cons a t =>
    rw [dropLeadUnderscore]
    by_cases h : a = '_'
    · rw [if_pos h]
      exact fun c hc => List.mem_cons_of_mem a hc
    · rw [if_neg h]
      exact fun c hc => hc

theorem dropLead_noDouble {l : List Char} (h : noDoubleUnderscore l) :
    noDoubleUnderscore (dropLeadUnderscore l) := by
  cases l with
  | nil => exact List.chain'_nil
  | cons a t =>
    rw [dropLeadUnderscore]
    by_cases ha : a = '_'
    · rw [if_pos ha]
      exact (List.chain'_cons'.mp h).2
    · rw [if_neg ha]
      exact h

theorem dropLead_head_ne {l : List Char} (h : noDoubleUnderscore l) :
    ∀ c, (dropLeadUnderscore l).head? = some c → c ≠ '_' := by
  cases l with
  | nil => intro c hc; exact absurd hc (by simp [dropLeadUnderscore])
  | cons a t =>
    rw [dropLeadUnderscore]
    by_cases ha : a = '_'
    · rw [if_pos ha]
      intro c hc
      have := (List.chain'_cons'.mp h).1 c hc
      intro hc'
      exact this ⟨ha, hc'⟩
    · rw [if_neg ha]
      intro c hc
      rw [List.head?_cons, Option.some.injEq] at hc
      subst hc
      exact ha

theorem dropLead_getLast {l : List Char} :
    ∀ c, (dropLeadUnderscore l).getLast? = some c → l.getLast? = some c := by
  cases l with
  | nil => intro c hc; exact absurd hc (by simp [dropLeadUnderscore])
  | cons a t =>
    rw [dropLeadUnderscore]
    by_cases ha : a = '_'
    · rw [if_pos ha]
      intro c hc
      cases t with
      | nil => exact absurd hc (by simp)
      | cons b r =>
        rw [List.getLast?_cons_cons]
        exact hc
    · rw [if_neg ha]
      exact fun c hc => hc

theorem noDouble_reverse (l : List Char) :
    noDoubleUnderscore l.reverse ↔ noDoubleUnderscore l := by
  rw [noDoubleUnderscore, noDoubleUnderscore, List.chain'_reverse]
  constructor
  · exact fun h => h.imp (fun a b hab h2 => hab ⟨h2.2, h2.1⟩)
  · exact fun h => h.imp (fun a b hab h2 => hab ⟨h2.2, h2.1⟩)

theorem dropTrail_sub (l : List Char) :
    ∀ c ∈ dropTrailUnderscore l, c ∈ l := by
  intro c hc
  rw [dropTrailUnderscore, List.mem_reverse] at hc
  have h2 := dropLead_sub l.reverse c hc
  rw [List.mem_reverse] at h2
  exact h2

theorem dropTrail_noDouble {l : List Char} (h : noDoubleUnderscore l) :
    noDoubleUnderscore (dropTrailUnderscore l) := by
  rw [dropTrailUnderscore]
  exact (noDouble_reverse _).mpr (dropLead_noDouble ((noDouble_reverse l).mpr h))

theorem dropTrail_getLast_ne {l : List Char} (h : noDoubleUnderscore l) :
    ∀ c, (dropTrailUnderscore l).getLast? = some c → c ≠ '_' := by
  intro c hc
  rw [dropTrailUnderscore, List.getLast?_reverse] at hc
  exact dropLead_head_ne ((noDouble_reverse l).mpr h) c hc

theorem dropTrail_head {l : List Char} :
    ∀ c, (dropTrailUnderscore l).head? = some c → l.head? = some c := by
  intro c hc
  rw [dropTrailUnderscore, List.head?_reverse] at hc
  have h2 := dropLead_getLast c hc
  rw [List.getLast?_reverse] at h2
  exact h2

theorem sanitizeCore_allowed (raw : String) :
    ∀ c ∈ sanitizeCore raw, allowedChar c = true := by
  intro c hc
  rw [sanitizeCore] at hc
  exact replaceDisallowed_allowed _ c
    (collapse_sub _ c (dropLead_sub _ c (dropTrail_sub _ c hc)))

theorem sanitizeCore_noDouble (raw : String) :
    noDoubleUnderscore (sanitizeCore raw) := by
  rw [sanitizeCore]
  exact dropTrail_noDouble (dropLead_noDouble (collapse_noDouble _))

theorem sanitizeCore_head_ne (raw : String) :
    ∀ c, (sanitizeCore raw).head? = some c → c ≠ '_' := by
  intro c hc
  rw [sanitizeCore] at hc
  exact dropLead_head_ne (collapse_noDouble _) c (dropTrail_head c hc)

theorem sanitizeCore_getLast_ne (raw : String) :
    ∀ c, (sanitizeCore raw).getLast? = some c → c ≠ '_' := by
  intro c hc
  rw [sanitizeCore] at hc
  exact dropTrail_getLast_ne (dropLead_noDouble (collapse_noDouble _)) c hc

theorem digit_ne_underscore {c : Char} (h : isDigit09 c = true) : c ≠ '_' := by
  intro heq
  rw [heq] at h
  exact absurd h (by decide)

def noDoubleB : List Char → Bool
  | [] => true
  | [_] => true
  | a :: b :: rest =>
    if a = '_' ∧ b = '_' then false else noDoubleB (b :: rest)

theorem noDouble_iff : ∀ l : List Char,
    noDoubleUnderscore l ↔ noDoubleB l = true
  | [] => by
    simp [noDoubleUnderscore, noDoubleB]
  | [a] => by
    simp [noDoubleUnderscore, noDoubleB]
  | a :: b :: rest => by
    rw [noDoubleUnderscore, List.chain'_cons, noDoubleB]
    by_cases h : a = '_' ∧ b = '_'
    · rw [if_pos h]
      simp [h]
    · rw [if_neg h]
      have ih := noDouble_iff (b :: rest)
      rw [noDoubleUnderscore] at ih
      exact ⟨fun hx => ih.mp hx.2, fun hx => ⟨h, ih.mpr hx⟩⟩

instance noDoubleUnderscore.instDec (l : List Char) :
    Decidable (noDoubleUnderscore l) :=
  decidable_of_iff (noDoubleB l = true) (noDouble_iff l).symm

/-- C9: for every input string, `sanitizeCategory` returns a non-empty
identifier over `[a-z0-9_]` with no leading or trailing underscore and no
two consecutive underscores, never starting with a digit; a digit-leading
sanitized core is prefixed with `cat_`, and the literal `"category"` is
returned when nothing remains after sanitization. -/
theorem sanitizeCategory_spec (raw : String) :
    (sanitizeCategory raw).data ≠ [] ∧
    (∀ c ∈ (sanitizeCategory raw).data, allowedChar c = true) ∧
    (∀ c, (sanitizeCategory raw).data.head? = some c →
      c ≠ '_' ∧ isDigit09 c = false) ∧
    (∀ c, (sanitizeCategory raw).data.getLast? = some c → c ≠ '_') ∧
    noDoubleUnderscore (sanitizeCategory raw).data ∧
    (sanitizeCore raw = [] → sanitizeCategory raw = "category") ∧
    (∀ c rest, sanitizeCore raw = c :: rest → isDigit09 c = true →
      sanitizeCategory raw = String.mk ('c' :: 'a' :: 't' :: '_' :: c :: rest)) ∧
    (∀ c rest, sanitizeCore raw = c :: rest → isDigit09 c = false →
      sanitizeCategory raw = String.mk (c :: rest)) := by
  cases hcore : sanitizeCore raw with
  | nil =>
    have hcat : sanitizeCategory raw = "category" := by
      rw [sanitizeCategory, hcore]
    rw [hcat]
    refine ⟨by decide, by decide, by decide, by decide, by decide,
      fun _ => rfl, ?_, ?_⟩
    · intro c rest h hd
      exact absurd h (by simp)
    · intro c rest h hd
      exact absurd h (by simp)
  | cons c0 rest0 =>
    have hsub : ∀ c ∈ c0 :: rest0, allowedChar c = true := by
      intro c hc
      exact sanitizeCore_allowed raw c (hcore ▸ hc)
    have hnd : noDoubleUnderscore (c0 :: rest0) :=
      hcore ▸ sanitizeCore_noDouble raw
    have hlast : ∀ c, (c0 :: rest0).getLast? = some c → c ≠ '_' := by
      intro c hc
      exact sanitizeCore_getLast_ne raw c (hcore ▸ hc)
    have hhead : c0 ≠ '_' := by
      refine sanitizeCore_head_ne raw c0 ?_
      rw [hcore]
      rfl
    by_cases hd : isDigit09 c0 = true
    · have hcat : sanitizeCategory raw =
          String.mk ('c' :: 'a' :: 't' :: '_' :: c0 :: rest0) := by
        rw [sanitizeCategory, hcore]
        dsimp only
        rw [if_pos hd]
      rw [hcat]
      refine ⟨List.cons_ne_nil _ _, ?_, ?_, ?_, ?_, ?_, ?_, ?_⟩
      · intro c hc
        have hc2 : c ∈ 'c' :: 'a' :: 't' :: '_' :: c0 :: rest0 := hc
        simp only [List.mem_cons] at hc2
        rcases hc2 with rfl | rfl | rfl | rfl | hc3
        · decide
        · decide
        · decide
        · decide
        · rcases hc3 with rfl | hc4
          · exact hsub c (List.mem_cons_self _ _)
          · exact hsub c (List.mem_cons_of_mem _ hc4)
      · intro c hc
        have hc2 : ('c' :: 'a' :: 't' :: '_' :: c0 :: rest0).head? = some c := hc
        rw [List.head?_cons, Option.some.injEq] at hc2
        subst hc2
        exact ⟨by decide, by decide⟩
      · intro c hc
        have hc2 : ('c' :: 'a' :: 't' :: '_' :: c0 :: rest0).getLast? = some c := hc
        rw [List.getLast?_cons_cons, List.getLast?_cons_cons,
          List.getLast?_cons_cons, List.getLast?_cons_cons] at hc2
        exact hlast c hc2
      · show noDoubleUnderscore ('c' :: 'a' :: 't' :: '_' :: c0 :: rest0)
        rw [noDoubleUnderscore, List.chain'_cons, List.chain'_cons,
          List.chain'_cons, List.chain'_cons]
        refine ⟨by decide, by decide, by decide, ?_, hnd⟩
        intro h2
        exact digit_ne_underscore hd h2.2
      · intro h
        exact absurd h (by simp)
      · intro c rest h hd2
        injection h with h1 h2
        subst h1
        subst h2
        rfl
      · intro c rest h hd2
        injection h with h1 h2
        subst h1
        rw [hd] at hd2
        exact absurd hd2 (by simp)
    · have hdf : isDigit09 c0 = false := by
        rw [Bool.not_eq_true] at hd
        exact hd
      have hcat : sanitizeCategory raw = String.mk (c0 :: rest0) := by
        rw [sanitizeCategory, hcore]
        dsimp only
        rw [if_neg (by rw [hdf]; simp)]
      rw [hcat]
      refine ⟨List.cons_ne_nil _ _, ?_, ?_, ?_, hnd, ?_, ?_, ?_⟩
      · intro c hc
        exact hsub c hc
      · intro c hc
        have hc2 : (c0 :: rest0).head? = some c := hc
        rw [List.head?_cons, Option.some.injEq] at hc2
        subst hc2
        exact ⟨hhead, hdf⟩
      · intro c hc
        exact hlast c hc
      · intro h
        exact absurd h (by simp)
      · intro c rest h hd2
        injection h with h1 h2
        subst h1
        rw [hdf] at hd2
        exact absurd hd2 (by simp)
      · intro c rest h hd2
        injection h with h1 h2
        subst h1
        subst h2
        rfl

/-- Witness for C9: the sanitizer at work on a digit-leading messy input. -/
theorem sanitizeCategory_spec_witness :
    (sanitizeCategory "  9 Lives -- Cat Food!  ").data ≠ [] ∧
    noDoubleUnderscore (sanitizeCategory "  9 Lives -- Cat Food!  ").data :=
  ⟨(sanitizeCategory_spec "  9 Lives -- Cat Food!  ").1,
   (sanitizeCategory_spec "  9 Lives -- Cat Food!  ").2.2.2.2.1⟩

/-! ### Dashboard baseline constraints (chat page `loadDashboardConstraints`)

Embedded from the TypeScript source in the chat page: bills become hard
`==` constraints, deposits an income ceiling plus a soft savings goal.
`toLocaleString` number formatting inside description strings is rendered
as plain decimal text. -/

/-- Constraint provenance (`source` field of `UserConstraint`). -/
inductive CSource where
  | user
  | ai
  | nessie
deriving DecidableEq, Repr

/-- `UserConstraint` from `frontend/lib/api.ts` (the constraint editor's
interface spells the type field `constraintType`; same shape). -/
structure UserConstraint where
  id : String
  category : String
  operator : CmpOp
  amount : Int
  constraint_type : CType
  priority : Int
  description : String
  source : CSource
deriving DecidableEq, Repr

/-- A bill record of `dashboard.bills` (the fields the page reads; raw
feed values may be fractional, hence rational amounts). -/
structure Bill where
  payee : Option String
  nickname : Option String
  payment_amount : Option ℚ

/-- A deposit record of `dashboard.deposits`. -/
structure Deposit where
  amount : Option ℚ

/-- JavaScript `a || b` on an optional string: absent or empty falls
through to `b`. -/
def strOr (a : Option String) (b : String) : String :=
  match a with
  | some s => if s = "" then b else s
  | none => b

/-- JavaScript `x || 0` on an optional numeric field. -/
def numOr0 (a : Option ℚ) : ℚ :=
  match a with
  | some q => q
  | none => 0

/-- JavaScript `Math.round`: round half towards positive infinity. -/
def jsRound (q : ℚ) : Int :=
  Int.floor (q + 1 / 2)

/-- The hard `==` constraint pushed for bill number `idx`. -/
def billConstraint (idx : Nat) (b : Bill) : UserConstraint :=
  { id := "nessie-bill-" ++ toString idx
    category := sanitizeCategory
      (strOr b.payee (strOr b.nickname ("bill_" ++ toString (idx + 1))))
    operator := CmpOp.eq
    amount := jsRound (numOr0 b.payment_amount)
    constraint_type := CType.hard
    priority := 0
    description :=
      strOr b.payee (strOr b.nickname ("bill_" ++ toString (idx + 1))) ++
        " — $" ++ toString (jsRound (numOr0 b.payment_amount)) ++
        "/mo (recurring bill)"
    source := CSource.nessie }

/-- The bills pass: a push per bill, skipping non-positive rounded
payment amounts, guarded by `bills.length > 0`. -/
def nessieBillConstraints (bills : List Bill) : List UserConstraint :=
  if bills.length > 0 then
    bills.enum.foldl
      (fun acc p =>
        if jsRound (numOr0 p.2.payment_amount) ≤ 0 then acc
        else acc ++ [billConstraint p.1 p.2])
      []
  else []

/-- `totalIncome`: the sum of rounded deposit amounts. -/
def totalIncomeOf (deposits : List Deposit) : Int :=
  deposits.foldl (fun sum d => sum + jsRound (numOr0 d.amount)) 0

/-- `savingsGoal = Math.round(totalIncome * 0.2)`. -/
def savingsGoalOf (totalIncome : Int) : Int :=
  jsRound ((totalIncome : ℚ) * (1 / 5))

/-- The hard income ceiling pushed when total income is positive. -/
def incomeConstraint (totalIncome : Int) : UserConstraint :=
  { id := "nessie-income"
    category := "total_income"
    operator := CmpOp.le
    amount := totalIncome
    constraint_type := CType.hard
    priority := 0
    description := "Monthly income — $" ++ toString totalIncome ++
      " (from deposits)"
    source := CSource.nessie }

/-- The soft savings goal (20% of income) pushed alongside the ceiling. -/
def savingsConstraint (totalIncome : Int) : UserConstraint :=
  { id := "nessie-savings-goal"
    category := "savings"
    operator := CmpOp.ge
    amount := savingsGoalOf totalIncome
    constraint_type := CType.soft
    priority := 0
    description := "Save at least 20% of income ($" ++
      toString (savingsGoalOf totalIncome) ++ ")"
    source := CSource.nessie }

/-- The whole `nessieConstraints` assembly: bill constraints first, then
— when the deposit list is non-empty and total income positive — the
income ceiling and the savings goal. -/
def nessieConstraints (bills : List Bill) (deposits : List Deposit) :
    List UserConstraint :=
  nessieBillConstraints bills ++
    (if deposits.length > 0 then
      if totalIncomeOf deposits > 0 then
        [incomeConstraint (totalIncomeOf deposits),
         savingsConstraint (totalIncomeOf deposits)]
      else []
    else [])

theorem billFold_eq :
    ∀ (l : List (Nat × Bill)) (acc : List UserConstraint),
      l.foldl
        (fun acc p =>
          if jsRound (numOr0 p.2.payment_amount) ≤ 0 then acc
          else acc ++ [billConstraint p.1 p.2]) acc =
        acc ++ (l.filter
          (fun p => 0 < jsRound (numOr0 p.2.payment_amount))).map
          (fun p => billConstraint p.1 p.2)
  | [], acc => by simp
  | p :: l, acc => by
    rw [List.foldl_cons, List.filter_cons]
    by_cases h : jsRound (numOr0 p.2.payment_amount) ≤ 0
    · rw [if_pos h]
      rw [decide_eq_false (not_lt.mpr h)]
      simp only [Bool.false_eq_true, if_false]
      exact billFold_eq l acc
    · rw [if_neg h]
      rw [decide_eq_true (lt_of_not_le h)]
      simp only [if_true, List.map_cons]
      rw [billFold_eq l (acc ++ [billConstraint p.1 p.2])]
      simp [List.append_assoc]

/-- C7: the baseline constraint list built from bank dashboard data is
exactly one hard `==` constraint per bill with strictly positive rounded
payment amount, followed — when the total of rounded deposits is
positive — by a hard `<=` `total_income` ceiling at that total and a
soft `>=` `savings` goal at round(0.2 × total income). -/
theorem nessie_constraints_exact (bills : List Bill) (deposits : List Deposit) :
    (nessieConstraints bills deposits =
      (bills.enum.filter
        (fun p => 0 < jsRound (numOr0 p.2.payment_amount))).map
        (fun p => billConstraint p.1 p.2) ++
      (if 0 < totalIncomeOf deposits then
        [incomeConstraint (totalIncomeOf deposits),
         savingsConstraint (totalIncomeOf deposits)]
      else [])) ∧
    (∀ (i : Nat) (b : Bill),
      (billConstraint i b).constraint_type = CType.hard ∧
      (billConstraint i b).operator = CmpOp.eq ∧
      (billConstraint i b).amount = jsRound (numOr0 b.payment_amount)) ∧
    (incomeConstraint (totalIncomeOf deposits)).constraint_type = CType.hard ∧
    (incomeConstraint (totalIncomeOf deposits)).operator = CmpOp.le ∧
    (incomeConstraint (totalIncomeOf deposits)).category = "total_income" ∧
    (incomeConstraint (totalIncomeOf deposits)).amount = totalIncomeOf deposits ∧
    (savingsConstraint (totalIncomeOf deposits)).constraint_type = CType.soft ∧
    (savingsConstraint (totalIncomeOf deposits)).operator = CmpOp.ge ∧
    (savingsConstraint (totalIncomeOf deposits)).category = "savings" ∧
    (savingsConstraint (totalIncomeOf deposits)).amount =
      jsRound ((totalIncomeOf deposits : ℚ) / 5) := by
  refine ⟨?_, fun i b => ⟨rfl, rfl, rfl⟩, rfl, rfl, rfl, rfl, rfl, rfl, rfl, ?_⟩
  · rw [nessieConstraints]
    have hbills : nessieBillConstraints bills =
        (bills.enum.filter
          (fun p => 0 < jsRound (numOr0 p.2.payment_amount))).map
          (fun p => billConstraint p.1 p.2) := by
      cases bills with
      | nil => simp [nessieBillConstraints]
      | cons b bs =>
        rw [nessieBillConstraints, if_pos (by simp : (b :: bs).length > 0),
          billFold_eq (b :: bs).enum []]
        rw [List.nil_append]
    rw [hbills]
    congr 1
    cases deposits with
    | nil => simp [totalIncomeOf]
    | cons d ds =>
      rw [if_pos (by simp : (d :: ds).length > 0)]
  · rw [savingsConstraint]
    dsimp only
    rw [savingsGoalOf]
    congr 1
    ring

/-! ### Constraint editor (`ConstraintEditor` component)

Embedded from the TypeScript source: `Partial<UserConstraint>` updates
via object spread, `updateConstraint`, `deleteConstraint`,
`addConstraint`, and the priority Slider's output.  The Slider itself is
an external UI component; `sliderValue` models its prop contract
(min 0, max 4, step 1) by clamping to that range. -/

structure PartialUC where
  id : Option String := none
  category : Option String := none
  operator : Option CmpOp := none
  amount : Option Int := none
  constraint_type : Option CType := none
  priority : Option Int := none
  description : Option String := none
  source : Option CSource := none
deriving DecidableEq, Repr

def applyUpdates (c : UserConstraint) (u : PartialUC) : UserConstraint :=
  { id := u.id.getD c.id
    category := u.category.getD c.category
    operator := u.operator.getD c.operator
    amount := u.amount.getD c.amount
    constraint_type := u.constraint_type.getD c.constraint_type
    priority := u.priority.getD c.priority
    description := u.description.getD c.description
    source := u.source.getD c.source }

def updateConstraint (constraints : List UserConstraint) (tid : String)
    (updates : PartialUC) : List UserConstraint :=
  constraints.map (fun c => if c.id == tid then applyUpdates c updates else c)

def deleteConstraint (constraints : List UserConstraint) (tid : String) :
    List UserConstraint :=
  constraints.filter (fun c => !(c.id == tid))

def replaceWsRunsAux : Bool → List Char → List Char
  | _, [] => []
  | prevWs, c :: rest =>
    if c.isWhitespace then
      if prevWs then replaceWsRunsAux true rest
      else '_' :: replaceWsRunsAux true rest
    else c :: replaceWsRunsAux false rest

def editorCategoryName (s : String) : String :=
  String.mk (replaceWsRunsAux false (s.data.map Char.toLower))

def addConstraint (constraints : List UserConstraint) (freshId : String)
    (newCategory : String) (categories : List String) : List UserConstraint :=
  constraints ++
    [{ id := freshId
       category := editorCategoryName
         (strOr (some newCategory) (strOr categories.head? "custom"))
       operator := CmpOp.le
       amount := 500
       constraint_type := CType.soft
       priority := 2
       description := ""
       source := CSource.user }]

def sliderValue (v : Int) : Int := max 0 (min 4 v)

inductive EditorOp where
  | add (freshId : String) (newCategory : String) (categories : List String)
  | setCategory (tid : String) (val : String)
  | setOperator (tid : String) (val : CmpOp)
  | setAmount (tid : String) (val : Int)
  | setType (tid : String) (val : CType)
  | setPriority (tid : String) (val : Int)
  | del (tid : String)

def applyOp (cs : List UserConstraint) : EditorOp → List UserConstraint
  | EditorOp.add freshId newCategory categories =>
    addConstraint cs freshId newCategory categories
  | EditorOp.setCategory tid val => updateConstraint cs tid { category := some val }
  | EditorOp.setOperator tid val => updateConstraint cs tid { operator := some val }
  | EditorOp.setAmount tid val => updateConstraint cs tid { amount := some val }
  | EditorOp.setType tid val =>
    updateConstraint cs tid { constraint_type := some val }
  | EditorOp.setPriority tid val =>
    updateConstraint cs tid { priority := some (sliderValue val) }
  | EditorOp.del tid => deleteConstraint cs tid

def priorityInRange (cs : List UserConstraint) : Prop :=
  ∀ c ∈ cs, 0 ≤ c.priority ∧ c.priority ≤ 4

instance priorityInRange.instDec (cs : List UserConstraint) :
    Decidable (priorityInRange cs) :=
  inferInstanceAs (Decidable (∀ c ∈ cs, 0 ≤ c.priority ∧ c.priority ≤ 4))

theorem updateConstraint_mem {cs : List UserConstraint} {tid : String}
    {u : PartialUC} {c : UserConstraint} (hc : c ∈ updateConstraint cs tid u) :
    ∃ x ∈ cs, c = x ∨ c = applyUpdates x u := by
  simp only [updateConstraint, List.mem_map] at hc
  obtain ⟨x, hx, hfx⟩ := hc
  by_cases hb : x.id == tid
  · rw [if_pos hb] at hfx
    exact ⟨x, hx, Or.inr hfx.symm⟩
  · rw [if_neg hb] at hfx
    exact ⟨x, hx, Or.inl hfx.symm⟩

/-- C8: every constraint created or edited through the constraint editor
keeps an integer priority in 0..4 — the priority Slider's output is
clamped to [0, 4], every editor operation preserves the all-priorities-in-
range invariant, and a newly added constraint is soft with priority 2. -/
theorem editor_priority_invariant (cs : List UserConstraint) (op : EditorOp)
    (h : priorityInRange cs) :
    priorityInRange (applyOp cs op) ∧
    (∀ v : Int, 0 ≤ sliderValue v ∧ sliderValue v ≤ 4) ∧
    (∀ freshId newCategory categories, ∃ newc,
      addConstraint cs freshId newCategory categories = cs ++ [newc] ∧
      newc.constraint_type = CType.soft ∧ newc.priority = 2) := by
  have hslider : ∀ v : Int, 0 ≤ sliderValue v ∧ sliderValue v ≤ 4 := by
    intro v
    rw [sliderValue]
    constructor
    · exact le_max_left _ _
    · exact max_le (by norm_num) (min_le_left _ _)
  have hupd : ∀ (tid : String) (u : PartialUC),
      (∀ x : UserConstraint,
        (0 ≤ (applyUpdates x u).priority ∧ (applyUpdates x u).priority ≤ 4) ∨
          (applyUpdates x u).priority = x.priority) →
      priorityInRange (updateConstraint cs tid u) := by
    intro tid u hu c hc
    obtain ⟨x, hx, hcase⟩ := updateConstraint_mem hc
    rcases hcase with h1 | h1
    · rw [h1]
      exact h x hx
    · rw [h1]
      rcases hu x with hb | heq
      · exact hb
      · rw [heq]
        exact h x hx
  refine ⟨?_, hslider, ?_⟩
  · cases op with
    | add freshId newCategory categories =>
      intro c hc
      simp only [applyOp, addConstraint] at hc
      rcases List.mem_append.mp hc with hc1 | hc2
      · exact h c hc1
      · rw [List.mem_singleton] at hc2
        subst hc2
        exact ⟨by norm_num, by norm_num⟩
    | setCategory tid val => exact hupd tid _ (fun x => Or.inr rfl)
    | setOperator tid val => exact hupd tid _ (fun x => Or.inr rfl)
    | setAmount tid val => exact hupd tid _ (fun x => Or.inr rfl)
    | setType tid val => exact hupd tid _ (fun x => Or.inr rfl)
    | setPriority tid val => exact hupd tid _ (fun x => Or.inl (hslider val))
    | del tid =>
      intro c hc
      simp only [applyOp, deleteConstraint, List.mem_filter] at hc
      exact h c hc.1
  · intro freshId newCategory categories
    exact ⟨_, rfl, rfl, rfl⟩

/-- C10: the editor's `updateConstraint` returns a list of the same
length and order in which every constraint whose id differs from the
given id is unchanged, the matching constraint becomes the object-spread
merge, and the merge changes only the fields present in the update. -/
theorem updateConstraint_frame (cs : List UserConstraint) (tid : String)
    (u : PartialUC) :
    (updateConstraint cs tid u).length = cs.length ∧
    (∀ (i : Nat) (h : i < cs.length)
        (h2 : i < (updateConstraint cs tid u).length),
      ((cs.get ⟨i, h⟩).id ≠ tid →
        (updateConstraint cs tid u).get ⟨i, h2⟩ = cs.get ⟨i, h⟩) ∧
      ((cs.get ⟨i, h⟩).id = tid →
        (updateConstraint cs tid u).get ⟨i, h2⟩ =
          applyUpdates (cs.get ⟨i, h⟩) u)) ∧
    (∀ c : UserConstraint,
      (u.id = none → (applyUpdates c u).id = c.id) ∧
      (u.category = none → (applyUpdates c u).category = c.category) ∧
      (u.operator = none → (applyUpdates c u).operator = c.operator) ∧
      (u.amount = none → (applyUpdates c u).amount = c.amount) ∧
      (u.constraint_type = none →
        (applyUpdates c u).constraint_type = c.constraint_type) ∧
      (u.priority = none → (applyUpdates c u).priority = c.priority) ∧
      (u.description = none →
        (applyUpdates c u).description = c.description) ∧
      (u.source = none → (applyUpdates c u).source = c.source)) := by
  refine ⟨by simp [updateConstraint], ?_, ?_⟩
  · intro i h h2
    have hget : (updateConstraint cs tid u).get ⟨i, h2⟩ =
        if (cs.get ⟨i, h⟩).id == tid then applyUpdates (cs.get ⟨i, h⟩) u
        else cs.get ⟨i, h⟩ := by
      simp only [updateConstraint, List.get_eq_getElem, List.getElem_map]
    constructor
    · intro hne
      rw [hget, if_neg (by rw [beq_eq_false_iff_ne.mpr hne]; decide)]
    · intro heq
      rw [hget, if_pos (beq_iff_eq.mpr heq)]
  · intro c
    refine ⟨?_, ?_, ?_, ?_, ?_, ?_, ?_, ?_⟩ <;>
      (intro hn; rw [applyUpdates]; dsimp only; rw [hn, Option.getD_none])

/-- Witness for C8: an out-of-range slider input is clamped and the
invariant survives the edit. -/
theorem editor_priority_invariant_witness :
    priorityInRange (applyOp
      [⟨"user-1", "dining", CmpOp.le, 400, CType.soft, 2, "", CSource.user⟩]
      (EditorOp.setPriority "user-1" 99)) :=
  (editor_priority_invariant
    [⟨"user-1", "dining", CmpOp.le, 400, CType.soft, 2, "", CSource.user⟩]
    (EditorOp.setPriority "user-1" 99) (by decide)).1

/-- Witness for C10: updating one constraint's priority keeps the length,
leaves the other entry untouched, and does not change its category. -/
theorem updateConstraint_frame_witness :
    (updateConstraint
      [⟨"a1", "rent", CmpOp.eq, 1500, CType.hard, 0, "", CSource.user⟩,
       ⟨"b2", "dining", CmpOp.le, 400, CType.soft, 2, "", CSource.user⟩]
      "b2" { priority := some 3 }).length =
      ([⟨"a1", "rent", CmpOp.eq, 1500, CType.hard, 0, "", CSource.user⟩,
        ⟨"b2", "dining", CmpOp.le, 400, CType.soft, 2, "", CSource.user⟩] :
          List UserConstraint).length ∧
    (applyUpdates
      ⟨"a1", "rent", CmpOp.eq, 1500, CType.hard, 0, "", CSource.user⟩
      { priority := some 3 }).category = "rent" :=
  ⟨(updateConstraint_frame
      [⟨"a1", "rent", CmpOp.eq, 1500, CType.hard, 0, "", CSource.user⟩,
       ⟨"b2", "dining", CmpOp.le, 400, CType.soft, 2, "", CSource.user⟩]
      "b2" { priority := some 3 }).1,
   ((updateConstraint_frame
      [⟨"a1", "rent", CmpOp.eq, 1500, CType.hard, 0, "", CSource.user⟩,
       ⟨"b2", "dining", CmpOp.le, 400, CType.soft, 2, "", CSource.user⟩]
      "b2" { priority := some 3 }).2.2
      ⟨"a1", "rent", CmpOp.eq, 1500, CType.hard, 0, "", CSource.user⟩).2.1 rfl⟩


end Liquidity
